import Mathlib

/-!
Shallow embedding of `plot_stft.py`, the STFT spectrogram visualization
script.  The script fixes framing parameters (lines 5-12), loads a flat
little-endian float32 buffer, reshapes it to `(outsize, fftsize // 2, 2)`
(numpy row-major semantics, line 19), reconstructs the complex matrix
`data[..., 0] + 1j * data[..., 1]` (line 20), takes elementwise magnitudes
(line 23), and renders `20 * log10(mag.T + 1e-6)` as a heatmap
(lines 35-37).

Buffer elements are modelled generically (the decoder moves values around
without arithmetic on them, so its behaviour is element-type independent);
where real arithmetic matters (magnitude, decibels) the element type is
instantiated at `ℝ`.  Exact rational parameters stand in for the Python
floats `8000.0` and `1.0`, whose products here are exactly representable.
-/

namespace PlotStft

/-- Python's `int(...)` applied to a rational: truncation toward zero
(`int(1.9) == 1`, `int(-1.9) == -1`).  Used on line 7 of the source,
`signal_len = int(sample_rate * duration)`. -/
def pyInt (q : ℚ) : ℤ :=
  Int.tdiv q.num q.den

/-- Source line 5: `sample_rate = 8000.0`. -/
def sample_rate : ℚ := 8000

/-- Source line 6: `duration = 1.0`. -/
def duration : ℚ := 1

/-- Source line 7 with the two constants left as parameters:
`signal_len = int(sample_rate * duration)`. -/
def signalLenOf (sr dur : ℚ) : ℤ :=
  pyInt (sr * dur)

/-- Source line 7: `signal_len = int(sample_rate * duration)`. -/
def signal_len : ℤ := signalLenOf sample_rate duration

/-- Source line 9: `hop = 128`. -/
def hop : ℤ := 128

/-- Source line 10: `win = 256`. -/
def win : ℤ := 256

/-- Source line 11: `fftsize = 256`. -/
def fftsize : ℕ := 256

/-- Source line 12 with the constants left as parameters:
`outsize = (signal_len - win) // hop + 1`.  Python `//` is floor
division, which is `Int.fdiv`. -/
def outsizeOf (sLen w h : ℤ) : ℤ :=
  Int.fdiv (sLen - w) h + 1

/-- Source line 12: `outsize = (signal_len - win) // hop + 1`. -/
def outsize : ℤ := outsizeOf signal_len win hop

/-- The bin count `fftsize // 2` used as the middle reshape dimension on
source line 19. -/
def bin_count : ℕ := fftsize / 2

/-- Pairs up consecutive elements of a flat list: the innermost axis of
the `(outsize, fftsize // 2, 2)` reshape on source line 19, combined with
the slicing `data[..., 0] + 1j * data[..., 1]` on line 20 that turns each
`[re, im]` pair into one complex entry `(re, im)`. -/
def toPairs {α : Type} : List α → List (α × α)
  | a :: b :: rest => (a, b) :: toPairs rest
  | _ => []

/-- Fuel-driven worker for `chunkList`; the fuel (an upper bound on the
number of chunks) makes the recursion structural, so the kernel can
evaluate it on concrete buffers. -/
def chunkFuel {α : Type} (n : ℕ) : ℕ → List α → List (List α)
  | 0, _ => []
  | _ + 1, [] => []
  | fuel + 1, a :: t => (a :: t).take n :: chunkFuel n fuel ((a :: t).drop n)

/-- Splits a list into consecutive chunks of `n` elements: the row-major
reinterpretation of the flat buffer performed by `data.reshape` on source
line 19 (one chunk per frame). -/
def chunkList {α : Type} (n : ℕ) (l : List α) : List (List α) :=
  if n = 0 then [] else chunkFuel n l.length l

/-- Source lines 18-20, the SpectrogramDecoder: reinterpret the flat
buffer as `(frameCount, binCount, 2)` in row-major order and combine each
innermost pair into a complex entry `(re, im)`.  numpy's `reshape` raises
`ValueError` when the element count does not match; a negative dimension
is instead *inferred* from the buffer length (and the reshape fails when
the remaining product does not divide the length, or is zero).  `none`
models the fatal `ValueError` (the ShapeMismatch of the spec). -/
def decode {α : Type} (frameCount : ℤ) (binCount : ℕ) (buffer : List α) :
    Option (List (List (α × α))) :=
  if frameCount < 0 then
    if binCount = 0 then none
    else if binCount * 2 ∣ buffer.length then
      some ((chunkList (binCount * 2) buffer).map toPairs)
    else none
  else
    if buffer.length = frameCount.toNat * binCount * 2 then
      if binCount = 0 then some (List.replicate frameCount.toNat [])
      else some ((chunkList (binCount * 2) buffer).map toPairs)
    else none

/-- The shape of a decoded matrix: row count paired with the list of row
lengths. -/
def shapeOf {β : Type} (M : List (List β)) : ℕ × List ℕ :=
  (M.length, M.map List.length)

/-- Modelled from the spec: the external STFT producer (which writes
`stft_out.bin` and is not part of this repository) lays a row out as the
flat `(real, imag)` pairs of its entries in order. -/
def encodeRow {α : Type} (row : List (α × α)) : List α :=
  (row.map (fun z => [z.1, z.2])).flatten

/-- Modelled from the spec: the external producer's full buffer layout,
`[frame_count][bin_count][2]` row-major with the real component first in
each pair. -/
def encode {α : Type} (M : List (List (α × α))) : List α :=
  (M.map encodeRow).flatten

/-- Source line 23 elementwise: `np.abs` of the complex entry `(re, im)`
is `sqrt(re^2 + im^2)`. -/
noncomputable def magEntry (z : ℝ × ℝ) : ℝ :=
  Real.sqrt (z.1 ^ 2 + z.2 ^ 2)

/-- Source line 23: `mag = np.abs(complex_data)`, elementwise over the
matrix. -/
noncomputable def magMatrix (M : List (List (ℝ × ℝ))) : List (List ℝ) :=
  M.map (fun row => row.map magEntry)

/-- Source line 35 elementwise: `20 * np.log10(m + 1e-6)`. -/
noncomputable def dbOf (m : ℝ) : ℝ :=
  20 * Real.logb 10 (m + 1e-6)

/-- numpy's `.T` on a rectangular 2-D array (source line 35, `mag.T`):
entry `[b][f]` of the transpose is entry `[f][b]` of the original. -/
def transposeM (M : List (List ℝ)) : List (List ℝ) :=
  (List.range (M.headD []).length).map (fun b => M.map (fun row => row.getD b 0))

/-- The arguments of the `plt.imshow` call on source lines 35-36. -/
structure ImshowCall where
  image : List (List ℝ)
  origin : String
  aspect : String
  extent : ℚ × ℚ × ℚ × ℚ
  cmap : String

/-- The arguments of the `plt.colorbar` call on source line 37. -/
structure ColorbarCall where
  label : String

/-- Source lines 35-36: `plt.imshow(20 * np.log10(mag.T + 1e-6),
origin='lower', aspect='auto', extent=[0, duration, 0, sample_rate / 2],
cmap="magma")`. -/
noncomputable def spectrogramImshow (mag : List (List ℝ)) : ImshowCall :=
  { image := (transposeM mag).map (fun row => row.map dbOf)
    origin := "lower"
    aspect := "auto"
    extent := (0, duration, 0, sample_rate / 2)
    cmap := "magma" }

/-- Source line 37: `plt.colorbar(label="Magnitude (dB)")`. -/
def spectrogramColorbar : ColorbarCall :=
  { label := "Magnitude (dB)" }

/-- Written from the spec's words, for comparison with `signalLenOf`:
`signal_length = round(sample_rate * duration)` (rounding to the nearest
integer). -/
def specSignalLength (sr dur : ℚ) : ℤ :=
  round (sr * dur)

/-! ### Helper lemmas about `chunkFuel`, `chunkList` and `toPairs` -/

lemma chunkFuel_fuel_irrel {α : Type} (n : ℕ) (hn : 0 < n) :
    ∀ (fuel : ℕ) (l : List α), l.length ≤ fuel →
      chunkFuel n fuel l = chunkFuel n l.length l := by
  intro fuel
  induction fuel using Nat.strong_induction_on with
  | _ fuel ih =>
    intro l hl
    match fuel, l with
    | 0, l =>
      have : l = [] := List.length_eq_zero.mp (Nat.le_zero.mp hl)
      subst this
      rfl
    | fuel + 1, [] => rfl
    | fuel + 1, a :: t =>
      simp only [List.length_cons, chunkFuel]
      congr 1
      have hlen : (List.drop n (a :: t)).length ≤ t.length := by
        simp only [List.length_drop, List.length_cons]
        omega
      have h1 : chunkFuel n fuel (List.drop n (a :: t))
          = chunkFuel n (List.drop n (a :: t)).length (List.drop n (a :: t)) := by
        apply ih fuel (Nat.lt_succ_self fuel)
        have : t.length ≤ fuel := by
          simpa using Nat.succ_le_succ_iff.mp hl
        omega
      have h2 : chunkFuel n t.length (List.drop n (a :: t))
          = chunkFuel n (List.drop n (a :: t)).length (List.drop n (a :: t)) := by
        apply ih t.length (by simpa using Nat.succ_le_succ_iff.mp hl |>.trans_lt (Nat.lt_succ_self fuel))
        exact hlen
      rw [h1, h2]

lemma chunkList_nil {α : Type} (n : ℕ) : chunkList n ([] : List α) = [] := by
  unfold chunkList
  split
  · rfl
  · rfl

lemma chunkList_cons {α : Type} (n : ℕ) (hn : 0 < n) (l : List α) (hl : l ≠ []) :
    chunkList n l = l.take n :: chunkList n (l.drop n) := by
  obtain ⟨a, t, rfl⟩ := List.exists_cons_of_ne_nil hl
  unfold chunkList
  rw [if_neg (by omega), if_neg (by omega)]
  simp only [List.length_cons, chunkFuel]
  congr 1
  apply chunkFuel_fuel_irrel n hn
  simp only [List.length_drop, List.length_cons]
  omega

lemma chunkList_length_of {α : Type} (n : ℕ) (hn : 0 < n) :
    ∀ (fc : ℕ) (l : List α), l.length = fc * n → (chunkList n l).length = fc := by
  intro fc
  induction fc with
  | zero =>
    intro l h
    have : l = [] := List.length_eq_zero.mp (by simpa using h)
    subst this
    rw [chunkList_nil]
    rfl
  | succ fc ih =>
    intro l h
    have hmul : (fc + 1) * n = fc * n + n := by ring
    have hl : l ≠ [] := by
      intro e
      subst e
      simp only [List.length_nil] at h
      omega
    rw [chunkList_cons n hn l hl]
    simp only [List.length_cons]
    have := ih (l.drop n) (by simp only [List.length_drop]; omega)
    omega

lemma chunkList_getD {α : Type} (n : ℕ) (hn : 0 < n) :
    ∀ (i : ℕ) (l : List α), n * i + n ≤ l.length →
      (chunkList n l).getD i [] = (l.drop (n * i)).take n := by
  intro i
  induction i with
  | zero =>
    intro l h
    have hl : l ≠ [] := by
      intro e
      subst e
      simp only [List.length_nil] at h
      omega
    rw [chunkList_cons n hn l hl]
    simp
  | succ i ih =>
    intro l h
    have hmul : n * (i + 1) = n * i + n := by ring
    have hl : l ≠ [] := by
      intro e
      subst e
      simp only [List.length_nil] at h
      omega
    rw [chunkList_cons n hn l hl, List.getD_cons_succ,
      ih (l.drop n) (by simp only [List.length_drop]; omega), List.drop_drop]
    congr 2
    omega

lemma chunkList_mem_length {α : Type} (n : ℕ) (hn : 0 < n) :
    ∀ (fc : ℕ) (l : List α), l.length = fc * n →
      ∀ c ∈ chunkList n l, c.length = n := by
  intro fc
  induction fc with
  | zero =>
    intro l h c hc
    have : l = [] := List.length_eq_zero.mp (by simpa using h)
    subst this
    rw [chunkList_nil] at hc
    simp at hc
  | succ fc ih =>
    intro l h c hc
    have hmul : (fc + 1) * n = fc * n + n := by ring
    have hl : l ≠ [] := by
      intro e
      subst e
      simp only [List.length_nil] at h
      omega
    rw [chunkList_cons n hn l hl] at hc
    rcases List.mem_cons.mp hc with hc | hc
    · subst hc
      simp only [List.length_take]
      omega
    · exact ih (l.drop n) (by simp only [List.length_drop]; omega) c hc

lemma toPairs_length_of {α : Type} :
    ∀ (b : ℕ) (l : List α), l.length = 2 * b → (toPairs l).length = b := by
  intro b
  induction b with
  | zero =>
    intro l h
    have : l = [] := List.length_eq_zero.mp (by omega)
    subst this
    rfl
  | succ b ih =>
    intro l h
    cases l with
    | nil => simp at h
    | cons a t =>
      cases t with
      | nil => simp at h; omega
      | cons c rest =>
        simp only [toPairs, List.length_cons]
        have := ih rest (by simp only [List.length_cons] at h; omega)
        omega

lemma toPairs_getD {α : Type} (d : α) :
    ∀ (b : ℕ) (l : List α), 2 * b + 1 < l.length →
      (toPairs l).getD b (d, d) = (l.getD (2 * b) d, l.getD (2 * b + 1) d) := by
  intro b
  induction b with
  | zero =>
    intro l h
    cases l with
    | nil => simp at h
    | cons a t =>
      cases t with
      | nil => simp at h
      | cons c rest => simp [toPairs]
  | succ b ih =>
    intro l h
    cases l with
    | nil => simp at h
    | cons a t =>
      cases t with
      | nil => simp at h
      | cons c rest =>
        simp only [toPairs, List.getD_cons_succ]
        rw [ih rest (by simp only [List.length_cons] at h; omega)]
        have e1 : 2 * (b + 1) = 2 * b + 1 + 1 := by ring
        rw [e1]
        simp only [List.getD_cons_succ]

lemma getD_map_of_lt {α β : Type} (g : α → β) (l : List α) (f : ℕ) (d : β) (dd : α)
    (hf : f < l.length) :
    (l.map g).getD f d = g (l.getD f dd) := by
  rw [List.getD_eq_getElem?_getD, List.getD_eq_getElem?_getD, List.getElem?_map,
    List.getElem?_eq_getElem hf]
  rfl

lemma getD_drop_take {α : Type} (l : List α) (s n j : ℕ) (d : α) (hj : j < n) :
    ((l.drop s).take n).getD j d = l.getD (s + j) d := by
  rw [List.getD_eq_getElem?_getD, List.getD_eq_getElem?_getD, List.getElem?_take,
    if_pos hj, List.getElem?_drop]

/-! ### Helper lemmas about `decode` -/

lemma decode_eq_some {α : Type} (fc : ℤ) (bc : ℕ) (buffer : List α) (hfc : 0 ≤ fc)
    (hbc : 0 < bc) (hlen : buffer.length = fc.toNat * bc * 2) :
    decode fc bc buffer = some ((chunkList (bc * 2) buffer).map toPairs) := by
  unfold decode
  rw [if_neg (not_lt.mpr hfc), if_pos hlen, if_neg (by omega)]

lemma decode_eq_none {α : Type} (fc : ℤ) (bc : ℕ) (buffer : List α) (hfc : 0 ≤ fc)
    (hlen : buffer.length ≠ fc.toNat * bc * 2) :
    decode fc bc buffer = none := by
  unfold decode
  rw [if_neg (not_lt.mpr hfc), if_neg hlen]

lemma decode_matrix_length {α : Type} (bc : ℕ) (buffer : List α) (fcN : ℕ)
    (hbc : 0 < bc) (hlen : buffer.length = fcN * bc * 2) :
    ((chunkList (bc * 2) buffer).map toPairs).length = fcN := by
  rw [List.length_map]
  exact chunkList_length_of (bc * 2) (by omega) fcN buffer (by rw [hlen]; ring)

lemma decode_matrix_row {α : Type} (bc : ℕ) (buffer : List α) (fcN f : ℕ)
    (hbc : 0 < bc) (hlen : buffer.length = fcN * bc * 2) (hf : f < fcN) :
    ((chunkList (bc * 2) buffer).map toPairs).getD f []
      = toPairs ((buffer.drop (bc * 2 * f)).take (bc * 2)) := by
  have hchunk : (chunkList (bc * 2) buffer).length = fcN :=
    chunkList_length_of (bc * 2) (by omega) fcN buffer (by rw [hlen]; ring)
  rw [getD_map_of_lt toPairs _ f [] [] (by rw [hchunk]; exact hf)]
  congr 1
  apply chunkList_getD (bc * 2) (by omega) f buffer
  calc bc * 2 * f + bc * 2 = (bc * 2) * (f + 1) := by ring
    _ ≤ (bc * 2) * fcN := Nat.mul_le_mul_left _ hf
    _ = fcN * bc * 2 := by ring
    _ = buffer.length := hlen.symm

lemma decode_row_bound {α : Type} (bc : ℕ) (buffer : List α) (fcN f : ℕ)
    (hbc : 0 < bc) (hlen : buffer.length = fcN * bc * 2) (hf : f < fcN) :
    ((buffer.drop (bc * 2 * f)).take (bc * 2)).length = bc * 2 := by
  simp only [List.length_take, List.length_drop]
  have : bc * 2 * f + bc * 2 ≤ buffer.length := by
    calc bc * 2 * f + bc * 2 = (bc * 2) * (f + 1) := by ring
      _ ≤ (bc * 2) * fcN := Nat.mul_le_mul_left _ hf
      _ = fcN * bc * 2 := by ring
      _ = buffer.length := hlen.symm
  omega

lemma decode_matrix_row_length {α : Type} (bc : ℕ) (buffer : List α) (fcN f : ℕ)
    (hbc : 0 < bc) (hlen : buffer.length = fcN * bc * 2) (hf : f < fcN) :
    (((chunkList (bc * 2) buffer).map toPairs).getD f []).length = bc := by
  rw [decode_matrix_row bc buffer fcN f hbc hlen hf]
  exact toPairs_length_of bc _ (by rw [decode_row_bound bc buffer fcN f hbc hlen hf]; ring)

lemma decode_matrix_entry {α : Type} (bc : ℕ) (buffer : List α) (d : α) (fcN f b : ℕ)
    (hbc : 0 < bc) (hlen : buffer.length = fcN * bc * 2) (hf : f < fcN) (hb : b < bc) :
    (((chunkList (bc * 2) buffer).map toPairs).getD f []).getD b (d, d)
      = (buffer.getD (2 * (f * bc + b)) d, buffer.getD (2 * (f * bc + b) + 1) d) := by
  rw [decode_matrix_row bc buffer fcN f hbc hlen hf]
  rw [toPairs_getD d b _ (by rw [decode_row_bound bc buffer fcN f hbc hlen hf]; omega)]
  rw [getD_drop_take buffer (bc * 2 * f) (bc * 2) (2 * b) d (by omega)]
  rw [getD_drop_take buffer (bc * 2 * f) (bc * 2) (2 * b + 1) d (by omega)]
  have e1 : bc * 2 * f + 2 * b = 2 * (f * bc + b) := by ring
  have e2 : bc * 2 * f + (2 * b + 1) = 2 * (f * bc + b) + 1 := by ring
  rw [e1, e2]

lemma decode_matrix_shape {α : Type} (bc : ℕ) (buffer : List α) (fcN : ℕ)
    (hbc : 0 < bc) (hlen : buffer.length = fcN * bc * 2) :
    shapeOf ((chunkList (bc * 2) buffer).map toPairs) = (fcN, List.replicate fcN bc) := by
  unfold shapeOf
  rw [decode_matrix_length bc buffer fcN hbc hlen]
  refine congrArg (Prod.mk fcN) ?_
  rw [List.eq_replicate_iff]
  constructor
  · rw [List.length_map, List.length_map]
    exact chunkList_length_of (bc * 2) (by omega) fcN buffer (by rw [hlen]; ring)
  · intro x hx
    rcases List.mem_map.mp hx with ⟨row, hrow, rfl⟩
    rcases List.mem_map.mp hrow with ⟨c, hc, rfl⟩
    have hclen : c.length = bc * 2 :=
      chunkList_mem_length (bc * 2) (by omega) fcN buffer (by rw [hlen]; ring) c hc
    exact toPairs_length_of bc c (by rw [hclen]; ring)

/-! ### Claim theorems -/

/-- C1: for every `frame_count >= 1`, `bin_count >= 1` and buffer of exactly
`frame_count * bin_count * 2` values, `decode` returns a complex matrix of
shape `(frame_count, bin_count)` in which `output[f][b] =
(buffer[2*(f*bin_count+b)], buffer[2*(f*bin_count+b)+1])` — row-major
`[frame][bin][re, im]` nesting with the real component first. -/
theorem decode_index_formula {α : Type} (fc : ℤ) (bc : ℕ) (buffer : List α)
    (M : List (List (α × α))) (d : α) (f b : ℕ)
    (hfc : 1 ≤ fc) (hbc : 1 ≤ bc) (hlen : buffer.length = fc.toNat * bc * 2)
    (hM : decode fc bc buffer = some M) (hf : f < fc.toNat) (hb : b < bc) :
    M.length = fc.toNat ∧ (M.getD f []).length = bc ∧
      (M.getD f []).getD b (d, d)
        = (buffer.getD (2 * (f * bc + b)) d, buffer.getD (2 * (f * bc + b) + 1) d) := by
  rw [decode_eq_some fc bc buffer (by omega) (by omega) hlen] at hM
  obtain rfl := (Option.some.inj hM).symm
  exact ⟨decode_matrix_length bc buffer fc.toNat (by omega) hlen,
    decode_matrix_row_length bc buffer fc.toNat f (by omega) hlen hf,
    decode_matrix_entry bc buffer d fc.toNat f b (by omega) hlen hf hb⟩

/-- Witness for C1 at `frame_count = 1`, `bin_count = 1`,
`buffer = [3, 4]`, which decodes to `[[(3, 4)]]`. -/
theorem decode_index_formula_witness :
    ([[((3 : ℚ), (4 : ℚ))]] : List (List (ℚ × ℚ))).length = (1 : ℤ).toNat ∧
      (([[((3 : ℚ), (4 : ℚ))]] : List (List (ℚ × ℚ))).getD 0 []).length = 1 ∧
      (([[((3 : ℚ), (4 : ℚ))]] : List (List (ℚ × ℚ))).getD 0 []).getD 0 (0, 0)
        = ([(3 : ℚ), 4].getD (2 * (0 * 1 + 0)) 0, [(3 : ℚ), 4].getD (2 * (0 * 1 + 0) + 1) 0) :=
  decode_index_formula 1 1 [(3 : ℚ), 4] [[((3 : ℚ), 4)]] 0 0 0 (by decide) (by decide)
    (by decide) (by rfl) (by decide) (by decide)

/-- C2: for every `frame_count >= 1` and `bin_count >= 1`, a buffer whose
length is not exactly `frame_count * bin_count * 2` makes `decode` fail
(`none`, modelling the ShapeMismatch `ValueError`) rather than return any
array: nothing is truncated or padded. -/
theorem decode_shape_mismatch {α : Type} (fc : ℤ) (bc : ℕ) (buffer : List α)
    (hfc : 1 ≤ fc) (hbc : 1 ≤ bc) (hlen : buffer.length ≠ fc.toNat * bc * 2) :
    decode fc bc buffer = none :=
  decode_eq_none fc bc buffer (by omega) hlen

/-- Witness for C2 at `frame_count = 1`, `bin_count = 1` and a 3-element
buffer (one float too many). -/
theorem decode_shape_mismatch_witness :
    decode 1 1 [(0 : ℚ), 0, 0] = none :=
  decode_shape_mismatch 1 1 [(0 : ℚ), 0, 0] (by decide) (by decide) (by decide)

/-- C3: under the fixed configuration (`sample_rate = 8000`,
`duration = 1`, `hop = 128`, `win = 256`, `fftsize = 256`) the derived
values are `signal_len = 8000`, `outsize = 61` frames and
`fftsize // 2 = 128` bins; a buffer of exactly `15616` floats decodes to a
`(61, 128)` matrix, and buffers of `15615` or `15617` floats fail with the
ShapeMismatch error (`none`). -/
theorem concrete_scenario :
    signal_len = 8000 ∧ outsize = 61 ∧ bin_count = 128 ∧
      (decode outsize bin_count (List.replicate 15616 (0 : ℚ))).map shapeOf
        = some (61, List.replicate 61 128) ∧
      decode outsize bin_count (List.replicate 15615 (0 : ℚ)) = none ∧
      decode outsize bin_count (List.replicate 15617 (0 : ℚ)) = none := by
  have hs : signal_len = 8000 := by
    norm_num [signal_len, signalLenOf, pyInt, sample_rate, duration]
  have ho : outsize = 61 := by
    rw [outsize, outsizeOf, hs]
    decide
  have hb : bin_count = 128 := by decide
  refine ⟨hs, ho, hb, ?_, ?_, ?_⟩
  · rw [ho, hb, decode_eq_some 61 128 _ (by decide) (by decide)
      (by simp only [List.length_replicate]; decide)]
    simp only [Option.map_some']
    exact congrArg some
      (decode_matrix_shape 128 _ 61 (by decide) (by simp only [List.length_replicate]))
  · rw [ho, hb]
    exact decode_eq_none 61 128 _ (by decide) (by simp only [List.length_replicate]; decide)
  · rw [ho, hb]
    exact decode_eq_none 61 128 _ (by decide) (by simp only [List.length_replicate]; decide)

lemma encodeRow_length {α : Type} (row : List (α × α)) :
    (encodeRow row).length = row.length * 2 := by
  induction row with
  | nil => rfl
  | cons z t ih =>
    simp only [encodeRow, List.map_cons, List.flatten_cons] at ih ⊢
    simp only [List.length_append, List.length_cons, List.length_nil, ih]
    ring

lemma toPairs_encodeRow {α : Type} (row : List (α × α)) :
    toPairs (encodeRow row) = row := by
  induction row with
  | nil => rfl
  | cons z t ih =>
    simp only [encodeRow, List.map_cons, List.flatten_cons, List.cons_append,
      List.nil_append] at ih ⊢
    simp only [toPairs, ih]

lemma encode_cons {α : Type} (r : List (α × α)) (M : List (List (α × α))) :
    encode (r :: M) = encodeRow r ++ encode M := by
  simp [encode]

lemma encode_length {α : Type} (bc : ℕ) (M : List (List (α × α)))
    (hrows : ∀ row ∈ M, row.length = bc) :
    (encode M).length = M.length * (bc * 2) := by
  induction M with
  | nil => simp [encode]
  | cons r t ih =>
    rw [encode_cons, List.length_append, encodeRow_length,
      hrows r (List.mem_cons_self r t), ih (fun row hr => hrows row (List.mem_cons_of_mem r hr)),
      List.length_cons]
    ring

lemma chunkList_encode {α : Type} (bc : ℕ) (hbc : 0 < bc) (M : List (List (α × α)))
    (hrows : ∀ row ∈ M, row.length = bc) :
    chunkList (bc * 2) (encode M) = M.map encodeRow := by
  induction M with
  | nil =>
    rw [List.map_nil]
    exact chunkList_nil (bc * 2)
  | cons r t ih =>
    have hrlen : (encodeRow r).length = bc * 2 := by
      rw [encodeRow_length, hrows r (List.mem_cons_self r t)]
    rw [encode_cons, List.map_cons,
      chunkList_cons (bc * 2) (by omega) _ (by
        intro e
        have := congrArg List.length e
        simp only [List.length_append, List.length_nil, hrlen] at this
        omega),
      List.take_left' hrlen, List.drop_left' hrlen,
      ih (fun row hr => hrows row (List.mem_cons_of_mem r hr))]

/-- C4: round-trip.  Encoding a complex matrix into the flat interleaved
`(real, imag)` row-major layout and decoding it back with the same frame
and bin counts reproduces the matrix exactly.  The entries are generic
(no arithmetic touches them), so the equality is exact — the bit-for-bit
claim for finite float32 values. -/
theorem encode_decode_roundtrip {α : Type} (bc : ℕ) (M : List (List (α × α)))
    (hrows : ∀ row ∈ M, row.length = bc) :
    decode (M.length : ℤ) bc (encode M) = some M := by
  by_cases hbc : bc = 0
  · subst hbc
    have hM : M = List.replicate M.length [] :=
      List.eq_replicate_iff.mpr
        ⟨rfl, fun r hr => List.length_eq_zero.mp (hrows r hr)⟩
    have hlen : (encode M).length = 0 := by
      rw [encode_length 0 M hrows]
      ring
    unfold decode
    rw [if_neg (not_lt.mpr (Int.natCast_nonneg _)),
      if_pos (by rw [hlen, Int.toNat_natCast]; ring), if_pos rfl,
      Int.toNat_natCast]
    exact congrArg some hM.symm
  · have hbcpos : 0 < bc := Nat.pos_of_ne_zero hbc
    rw [decode_eq_some _ bc _ (Int.natCast_nonneg _) hbcpos
      (by rw [encode_length bc M hrows, Int.toNat_natCast]; ring)]
    rw [chunkList_encode bc hbcpos M hrows, List.map_map]
    refine congrArg some ?_
    calc M.map (toPairs ∘ encodeRow)
        = M.map id := List.map_congr_left (fun r _ => toPairs_encodeRow r)
      _ = M := List.map_id M

/-- Witness for C4 at the one-frame, one-bin matrix `[[(1, 2)]]`. -/
theorem encode_decode_roundtrip_witness :
    decode (([[((1 : ℚ), (2 : ℚ))]] : List (List (ℚ × ℚ))).length : ℤ) 1
      (encode [[((1 : ℚ), (2 : ℚ))]]) = some [[((1 : ℚ), (2 : ℚ))]] :=
  encode_decode_roundtrip 1 [[((1 : ℚ), (2 : ℚ))]] (by simp)

lemma pyInt_eq_floor (q : ℚ) (hq : 0 ≤ q) : pyInt q = ⌊q⌋ := by
  unfold pyInt
  rw [Int.tdiv_eq_ediv (Rat.num_nonneg.mpr hq) (Int.natCast_nonneg q.den),
    ← Rat.floor_intCast_div_natCast q.num q.den, Rat.num_div_den q]

lemma fdiv_eq_rat_floor (a h : ℤ) (hh : 0 < h) :
    Int.fdiv a h = ⌊(a : ℚ) / (h : ℚ)⌋ := by
  rw [Int.fdiv_eq_ediv _ hh.le]
  have hcast : (h : ℚ) = ((h.toNat : ℕ) : ℚ) := by
    exact_mod_cast (congrArg (fun z : ℤ => (z : ℚ)) (Int.toNat_of_nonneg hh.le)).symm
  rw [hcast, Rat.floor_intCast_div_natCast a h.toNat, Int.toNat_of_nonneg hh.le]

/-- C5, counterexample: the spec says `signal_length =
round(sample_rate * duration)`, but the code computes
`int(sample_rate * duration)`, which truncates; at `sample_rate = 19/10`,
`duration = 1` the code yields `1` while rounding yields `2`. -/
theorem signal_len_round_counterexample :
    signalLenOf (19 / 10) 1 = 1 ∧ specSignalLength (19 / 10) 1 = 2 ∧
      signalLenOf (19 / 10) 1 ≠ specSignalLength (19 / 10) 1 := by
  have h1 : signalLenOf (19 / 10) 1 = 1 := by
    rw [signalLenOf, mul_one, pyInt_eq_floor _ (by norm_num)]
    norm_num
  have h2 : specSignalLength (19 / 10) 1 = 2 := by
    rw [specSignalLength, mul_one, round_eq]
    norm_num
  exact ⟨h1, h2, by rw [h1, h2]; decide⟩

/-- C5 (amended): for every `sample_rate` and `duration`, the derived
`signal_len` is the truncation toward zero of `sample_rate * duration`
(Python `int`), hence the floor whenever the product is non-negative —
not round-to-nearest; and `frame_count` equals
`floor((signal_len - win) / hop) + 1`, as claimed. -/
theorem signal_len_trunc_and_frame_count_floor (sr dur : ℚ) (s w h : ℤ)
    (hnn : 0 ≤ sr * dur) (hh : 0 < h) :
    signalLenOf sr dur = ⌊sr * dur⌋ ∧
      outsizeOf s w h = ⌊((s : ℚ) - (w : ℚ)) / (h : ℚ)⌋ + 1 := by
  constructor
  · exact pyInt_eq_floor _ hnn
  · unfold outsizeOf
    rw [fdiv_eq_rat_floor (s - w) h hh]
    congr 2
    push_cast
    ring

/-- Witness for the amended C5 at the script's own parameters. -/
theorem signal_len_trunc_and_frame_count_floor_witness :
    signalLenOf 8000 1 = ⌊(8000 : ℚ) * 1⌋ ∧
      outsizeOf 8000 256 128 = ⌊(((8000 : ℤ) : ℚ) - ((256 : ℤ) : ℚ)) / ((128 : ℤ) : ℚ)⌋ + 1 :=
  signal_len_trunc_and_frame_count_floor 8000 1 8000 256 128 (by norm_num) (by decide)

/-- C6: the displayed decibel value of each element is
`20 * log10(magnitude + 1e-6)`; for a zero complex element the magnitude
is `0` and the decibel value is `20 * log10(1e-6) = -120`, a finite real
number rather than negative infinity. -/
theorem db_zero_finite :
    (∀ mag : List (List ℝ), (spectrogramImshow mag).image
        = (transposeM mag).map (fun row => row.map (fun m => 20 * Real.logb 10 (m + 1e-6)))) ∧
      magEntry (0, 0) = 0 ∧
      dbOf (magEntry (0, 0)) = 20 * Real.logb 10 (1e-6) ∧
      dbOf (magEntry (0, 0)) = -120 := by
  have hm : magEntry (0, 0) = 0 := by
    unfold magEntry
    norm_num
  have h6 : Real.logb 10 (1e-6 : ℝ) = -6 := by
    have he : (1e-6 : ℝ) = ((10 : ℝ) ^ (6 : ℕ))⁻¹ := by norm_num
    rw [he, Real.logb_inv, Real.logb_pow, Real.logb_self_eq_one (by norm_num)]
    norm_num
  refine ⟨fun mag => rfl, hm, ?_, ?_⟩
  · rw [hm]
    unfold dbOf
    rw [zero_add]
  · rw [hm]
    unfold dbOf
    rw [zero_add, h6]
    norm_num

/-- C7: the heatmap render receives the transposed decibel matrix (entry
`[b][f]` of the image is the decibel value of `mag[f][b]`, so frequency is
vertical and time horizontal), extent `[0, duration]` by
`[0, sample_rate / 2]`, lower-origin orientation, the perceptually
uniform `magma` color map, and a color bar labeled `Magnitude (dB)`. -/
theorem spectrogram_render_contract (mag : List (List ℝ)) (c f b : ℕ)
    (hrect : ∀ row ∈ mag, row.length = c) (hf : f < mag.length) (hb : b < c) :
    (spectrogramImshow mag).origin = "lower" ∧
      (spectrogramImshow mag).aspect = "auto" ∧
      (spectrogramImshow mag).cmap = "magma" ∧
      (spectrogramImshow mag).extent = (0, duration, 0, sample_rate / 2) ∧
      duration = 1 ∧ sample_rate / 2 = 4000 ∧
      spectrogramColorbar.label = "Magnitude (dB)" ∧
      ((spectrogramImshow mag).image.getD b []).getD f 0
        = dbOf ((mag.getD f []).getD b 0) := by
  have hhead : (mag.headD []).length = c := by
    cases mag with
    | nil => simp at hf
    | cons r t => exact hrect r (List.mem_cons_self r t)
  refine ⟨rfl, rfl, rfl, rfl, rfl, by norm_num [sample_rate], rfl, ?_⟩
  show (((transposeM mag).map (fun row => row.map dbOf)).getD b []).getD f 0
      = dbOf ((mag.getD f []).getD b 0)
  have hlen1 : b < (transposeM mag).length := by
    unfold transposeM
    rw [List.length_map, List.length_range, hhead]
    exact hb
  rw [getD_map_of_lt (fun row => row.map dbOf) (transposeM mag) b [] [] hlen1]
  have hrow : (transposeM mag).getD b [] = mag.map (fun row => row.getD b 0) := by
    unfold transposeM
    rw [getD_map_of_lt (fun bb => mag.map (fun row => row.getD bb 0)) _ b [] 0
      (by rw [List.length_range, hhead]; exact hb)]
    rw [List.getD_eq_getElem?_getD, List.getElem?_range (by rw [hhead]; exact hb)]
    rfl
  rw [hrow]
  rw [getD_map_of_lt dbOf _ f 0 0 (by rw [List.length_map]; exact hf)]
  rw [getD_map_of_lt (fun row => row.getD b 0) mag f 0 [] hf]

/-- Witness for C7 at the one-by-one magnitude matrix `[[5]]`. -/
theorem spectrogram_render_contract_witness :
    (spectrogramImshow [[(5 : ℝ)]]).origin = "lower" ∧
      (spectrogramImshow [[(5 : ℝ)]]).aspect = "auto" ∧
      (spectrogramImshow [[(5 : ℝ)]]).cmap = "magma" ∧
      (spectrogramImshow [[(5 : ℝ)]]).extent = (0, duration, 0, sample_rate / 2) ∧
      duration = 1 ∧ sample_rate / 2 = 4000 ∧
      spectrogramColorbar.label = "Magnitude (dB)" ∧
      ((spectrogramImshow [[(5 : ℝ)]]).image.getD 0 []).getD 0 0
        = dbOf (([[(5 : ℝ)]].getD 0 []).getD 0 0) :=
  spectrogram_render_contract [[(5 : ℝ)]] 1 0 0 (by simp) (by simp) (by decide)

/-- C8: when the derived frame count is `-1` (window exceeds signal
length with `signal_len - win` in `[-2*hop, -hop-1]`, since `//` floors),
numpy's reshape treats `-1` as an inferred dimension: any buffer whose
length is a multiple of `bin_count * 2` decodes without error, to a frame
count read off the buffer, so the ShapeMismatch guarantee fails there. -/
theorem negative_frame_count_inferred {α : Type} (sLen w h : ℤ) (bc : ℕ)
    (buffer : List α) (k : ℕ)
    (hh : 0 < h) (hlo : -(2 * h) ≤ sLen - w) (hhi : sLen - w < -h) (hbc : 0 < bc)
    (hlen : buffer.length = k * (bc * 2)) :
    outsizeOf sLen w h = -1 ∧
      (decode (outsizeOf sLen w h) bc buffer).map List.length = some k := by
  have hfd : Int.fdiv (sLen - w) h = -2 := by
    rw [Int.fdiv_eq_ediv _ hh.le]
    have h1 : (-2 : ℤ) ≤ (sLen - w) / h := (Int.le_ediv_iff_mul_le hh).mpr (by linarith)
    have h2 : (sLen - w) / h < -1 := (Int.ediv_lt_iff_lt_mul hh).mpr (by linarith)
    omega
  have ho : outsizeOf sLen w h = -1 := by
    unfold outsizeOf
    omega
  refine ⟨ho, ?_⟩
  rw [ho]
  unfold decode
  have hdvd : bc * 2 ∣ buffer.length := Dvd.intro k (by rw [hlen]; ring)
  rw [if_pos (by decide : (-1 : ℤ) < 0), if_neg (by omega), if_pos hdvd]
  simp only [Option.map_some']
  refine congrArg some ?_
  rw [List.length_map]
  exact chunkList_length_of (bc * 2) (by omega) k buffer hlen

/-- Witness for C8: `signal_len = 0`, `win = 256`, `hop = 128` give frame
count `-1`, and a 6-float buffer then decodes to 3 frames of 1 bin. -/
theorem negative_frame_count_inferred_witness :
    outsizeOf 0 256 128 = -1 ∧
      (decode (outsizeOf 0 256 128) 1 [(1 : ℚ), 2, 3, 4, 5, 6]).map List.length
        = some 3 :=
  negative_frame_count_inferred 0 256 128 1 [(1 : ℚ), 2, 3, 4, 5, 6] 3
    (by decide) (by decide) (by decide) (by decide) (by decide)

/-- C9: `decode` is deterministic and side-effect free: equal buffers with
equal frame and bin counts give identical decoded matrices and identical
derived magnitude matrices (the Lean embedding is a pure function; the
input list is immutable by construction). -/
theorem decode_deterministic (fc : ℤ) (bc : ℕ) (b1 b2 : List ℝ) (heq : b1 = b2) :
    decode fc bc b1 = decode fc bc b2 ∧
      (decode fc bc b1).map magMatrix = (decode fc bc b2).map magMatrix := by
  subst heq
  exact ⟨rfl, rfl⟩

/-- Witness for C9 on two equal two-float buffers. -/
theorem decode_deterministic_witness :
    decode 1 1 [(1 : ℝ), 2] = decode 1 1 [(1 : ℝ), 2] ∧
      (decode 1 1 [(1 : ℝ), 2]).map magMatrix = (decode 1 1 [(1 : ℝ), 2]).map magMatrix :=
  decode_deterministic 1 1 [(1 : ℝ), 2] [(1 : ℝ), 2] rfl

lemma getD_nonneg_of_forall (l : List ℝ) (b : ℕ) (h : ∀ x ∈ l, 0 ≤ x) :
    0 ≤ l.getD b 0 := by
  rw [List.getD_eq_getElem?_getD]
  cases hx : l[b]? with
  | none => simp
  | some x =>
    simpa using h x (List.getElem?_mem hx)

/-- C10: every element of the magnitude spectrogram of a decoded matrix
is non-negative: `magnitude[f][b] = sqrt(re^2 + im^2) >= 0`. -/
theorem magnitude_nonneg (fc : ℤ) (bc : ℕ) (buffer : List ℝ)
    (M : List (List (ℝ × ℝ))) (f b : ℕ)
    (hM : decode fc bc buffer = some M) :
    0 ≤ ((magMatrix M).getD f []).getD b 0 := by
  apply getD_nonneg_of_forall
  intro x hx
  cases hrow : (magMatrix M)[f]? with
  | none =>
    rw [List.getD_eq_getElem?_getD, hrow] at hx
    simp at hx
  | some row =>
    rw [List.getD_eq_getElem?_getD, hrow] at hx
    simp only [Option.getD_some] at hx
    have hmem : row ∈ magMatrix M := List.getElem?_mem hrow
    rcases List.mem_map.mp hmem with ⟨r0, hr0, rfl⟩
    rcases List.mem_map.mp hx with ⟨z, hz, rfl⟩
    exact Real.sqrt_nonneg _

/-- Witness for C10 at the decoded matrix of the buffer `[3, 4]`. -/
theorem magnitude_nonneg_witness :
    0 ≤ ((magMatrix [[((3 : ℝ), 4)]]).getD 0 []).getD 0 0 :=
  magnitude_nonneg 1 1 [(3 : ℝ), 4] [[((3 : ℝ), 4)]] 0 0 (by rfl)

end PlotStft
